import Mathlib

/-!
notes-api: routing, version endpoint and versioning redirector

A shallow embedding of `server.go`, `internal/handlers/handlers.go` and
`internal/middlewares/versioning.go`, together with the parts of the Go standard
library (`path.Clean`, `path.Join`, `url.Parse`, `http.Redirect`) and of the gin
framework (`joinPaths`, `c.JSON`, `c.String`, `c.Redirect`, `c.Abort`) that decide
what these sources answer.

Go strings are embedded as Lean strings; `+` on strings is `++`, `len` is the
byte length `String.utf8ByteSize`.  A handler is a function on the framework
context: the context records the response the framework writes for the handler
and whether the handler called `c.Abort()`.
-/

namespace NotesApi

/-! ## net/http status constants used by the sources -/

/-- Constant `http.StatusOK`. -/
def StatusOK : Nat := 200

/-- Constant `http.StatusPermanentRedirect`. -/
def StatusPermanentRedirect : Nat := 308

/-- Constant `http.StatusNotFound` (the framework default when nothing is registered). -/
def StatusNotFound : Nat := 404

/-- Constant `http.StatusMethodNotAllowed`. -/
def StatusMethodNotAllowed : Nat := 405

/-- Go `http.StatusText`, for the status codes `c.Redirect` accepts (201 and 300 to
308; 306 has no text). -/
def StatusText : Nat → String
  | 201 => "Created"
  | 300 => "Multiple Choices"
  | 301 => "Moved Permanently"
  | 302 => "Found"
  | 303 => "See Other"
  | 304 => "Not Modified"
  | 305 => "Use Proxy"
  | 307 => "Temporary Redirect"
  | 308 => "Permanent Redirect"
  | _ => ""

/-! ## Go standard library: path, net/url, net/http -/

/-- Go `strings.Split(s, "/")` on the characters of `s`. -/
def splitSlash : List Char → List (List Char)
  | [] => [[]]
  | c :: cs =>
    if c = '/' then [] :: splitSlash cs
    else
      match splitSlash cs with
      | [] => [[c]]
      | e :: es => (c :: e) :: es

/-- Go `strings.Join(elems, "/")`. -/
def joinSlash : List (List Char) → List Char
  | [] => []
  | [e] => e
  | e :: e2 :: es => e ++ '/' :: joinSlash (e2 :: es)

/-- One turn of the loop of Go `path.Clean`, on the next path element `e` (the
characters up to the next slash), with the elements written so far in `out`, last
one first: an empty element and `.` are skipped, `..` removes the last element
written when there is one to remove (in a rooted path it is dropped otherwise, in
an unrooted one it is written), any other element is written. -/
def cleanStep (rooted : Bool) (out : List (List Char)) (e : List Char) : List (List Char) :=
  if e = [] then out
  else if e = ['.'] then out
  else if e = ['.', '.'] then
    match out with
    | top :: rest => if rooted || top != ['.', '.'] then rest else e :: out
    | [] => if rooted then [] else [e]
  else e :: out

/-- Go `path.Clean`. -/
def pathClean (p : String) : String :=
  if p = "" then "."
  else
    let rooted : Bool := p.data.head? = some '/'
    let out := ((splitSlash p.data).foldl (cleanStep rooted) []).reverse
    if rooted then ⟨'/' :: joinSlash out⟩
    else if out = [] then "."
    else ⟨joinSlash out⟩

/-- Go `path.Join` of two elements. -/
def pathJoin (a b : String) : String :=
  if a = "" then (if b = "" then "" else pathClean b)
  else if b = "" then pathClean a
  else pathClean (a ++ "/" ++ b)

/-- The helper `lastChar` of the framework: the last character of a string. -/
def lastChar (s : String) : Option Char :=
  s.data.getLast?

/-- The framework's `joinPaths`, by which a group computes absolute paths. -/
def joinPaths (absolutePath relativePath : String) : String :=
  if relativePath = "" then absolutePath
  else
    let finalPath := pathJoin absolutePath relativePath
    if lastChar relativePath = some '/' ∧ lastChar finalPath ≠ some '/' then finalPath ++ "/"
    else finalPath


/-- The helper `stringContainsCTLByte` of Go `net/url`: an ASCII control character. -/
def containsCTL (s : List Char) : Bool :=
  s.any (fun c => c.toNat < 32 || c.toNat = 127)

/-- The helper `ishex` of Go `net/url`. -/
def ishex (c : Char) : Bool :=
  ('0' ≤ c && c ≤ '9') || ('a' ≤ c && c ≤ 'f') || ('A' ≤ c && c ≤ 'F')

/-- Whether the helper `unescape` of Go `net/url` succeeds outside host mode:
every `%` is followed by two hexadecimal digits. -/
def validEscapes : List Char → Bool
  | [] => true
  | '%' :: a :: b :: rest => ishex a && ishex b && validEscapes rest
  | '%' :: _ => false
  | _ :: rest => validEscapes rest

/-- The characters the helper `validUserinfo` of Go `net/url` accepts besides
letters and digits. -/
def userinfoMarks : List Char :=
  ['-', '.', '_', ':', '~', '!', '$', '&', Char.ofNat 39, '(', ')', '*', '+', ',', ';', '=',
   '%', '@']

/-- The helper `validUserinfo` of Go `net/url`. -/
def validUserinfo (s : List Char) : Bool :=
  s.all (fun r => r.isAlphanum || userinfoMarks.contains r)

/-- Whether the helper `parseAuthority` of Go `net/url` succeeds with an empty
host: the authority is empty, or it is a valid userinfo followed by `@` and
nothing. (A non-empty host part gives a non-empty host or an error.) -/
def authorityNoHost (authority : List Char) : Bool :=
  authority.isEmpty ||
    (authority.getLast? == some '@' &&
      validUserinfo authority.dropLast &&
        (if authority.dropLast.contains ':' then
          validEscapes (authority.dropLast.takeWhile (fun c => c != ':')) &&
            validEscapes ((authority.dropLast.dropWhile (fun c => c != ':')).drop 1)
         else validEscapes authority.dropLast))

/-- Whether Go `url.Parse` succeeds on a raw URL that begins with a slash with an
empty `Host` (the `Scheme` of such a URL is empty): no control character before the
fragment, valid escapes in path and fragment, and no host in a leading `//`
authority. -/
def parsesWithoutHost (rawURL : List Char) : Bool :=
  let u := rawURL.takeWhile (fun c => c != '#')
  let frag := (rawURL.dropWhile (fun c => c != '#')).drop 1
  let rest := u.takeWhile (fun c => c != '?')
  !containsCTL u &&
    (match rest with
     | '/' :: '/' :: '/' :: _ => validEscapes rest
     | '/' :: '/' :: more =>
       authorityNoHost (more.takeWhile (fun c => c != '/')) &&
         validEscapes (more.dropWhile (fun c => c != '/'))
     | _ => validEscapes rest) &&
    (frag.isEmpty || validEscapes frag)

/-- The target as Go `http.Redirect` rewrites it, for a target that begins with a
slash: when it parses as a URL without host, the part before the query is cleaned
with `path.Clean`, keeping a trailing slash; otherwise it is left as it is. -/
def redirectURL (url : String) : String :=
  if parsesWithoutHost url.data then
    let path := url.data.takeWhile (fun c => c != '?')
    let query := url.data.dropWhile (fun c => c != '?')
    let trailing : Bool := path.getLast? == some '/'
    let cleaned := pathClean ⟨path⟩
    let cleaned :=
      if trailing && !(cleaned.data.getLast? == some '/') then cleaned ++ "/" else cleaned
    cleaned ++ ⟨query⟩
  else url

/-- A hexadecimal digit, lower case. -/
def hexDigit (n : Nat) : Char :=
  if n < 10 then Char.ofNat (48 + n) else Char.ofNat (87 + n)

/-- The helper `hexEscapeNonASCII` of Go `net/http`: every byte of a non-ASCII
character becomes `%` and two hexadecimal digits. -/
def hexEscapeNonASCII (s : String) : String :=
  ⟨s.data.flatMap (fun c =>
    if c.toNat < 128 then [c]
    else (String.utf8EncodeChar c).flatMap (fun b =>
      ['%', hexDigit (b.toNat / 16), hexDigit (b.toNat % 16)]))⟩

/-- The helper `htmlEscape` of Go `net/http`. -/
def htmlEscape (s : String) : String :=
  ⟨s.data.flatMap (fun c =>
    if c = '&' then "&amp;".data
    else if c = '<' then "&lt;".data
    else if c = '>' then "&gt;".data
    else if c = Char.ofNat 34 then "&#34;".data
    else if c = Char.ofNat 39 then "&#39;".data
    else [c])⟩

/-! ## Requests and the framework context -/

/-- The parts of an incoming request: the handlers read only `Method` and `Path`
(`c.Request.Method`, `c.Request.URL.Path`); the rest is carried along so that
independence of it can be stated. -/
structure Request where
  Method : String
  Path : String
  RawQuery : String
  Header : List (String × String)
  Body : String
  deriving DecidableEq, Repr

/-- The response written for a handler. `gin.H` objects are embedded as
association lists in the order the source lists their keys. A redirect carries its
`Location` header, its `Content-Type` header if one is set, and its body. -/
inductive Render where
  | json (code : Nat) (obj : List (String × String))
  | text (code : Nat) (body : String)
  | redirect (code : Nat) (location : String) (contentType : Option String) (body : String)
  deriving DecidableEq, Repr

/-- The framework context seen by a handler. -/
structure Context where
  Request : Request
  written : Option Render
  aborted : Bool
  deriving DecidableEq, Repr

/-- A context for a request nothing has been written to yet. -/
def Context.fresh (req : NotesApi.Request) : Context :=
  { Request := req, written := none, aborted := false }

/-- Call `c.JSON(code, obj)`. -/
def Context.JSON (c : Context) (code : Nat) (obj : List (String × String)) : Context :=
  { c with written := some (Render.json code obj) }

/-- Call `c.String(code, body)` with no format arguments. -/
def Context.PlainString (c : Context) (code : Nat) (body : String) : Context :=
  { c with written := some (Render.text code body) }

/-- Call `c.Redirect(code, location)` with a location that begins with a slash, on
a response that has no `Content-Type` yet: the framework hands over to Go
`http.Redirect`, which rewrites the target, writes it %-escaped as `Location`, sets
an HTML `Content-Type` for `GET` and `HEAD`, and writes a short HTML body for
`GET`. -/
def Context.Redirect (c : Context) (code : Nat) (location : String) : Context :=
  let url := redirectURL location
  { c with written := some (Render.redirect code (hexEscapeNonASCII url)
      (if c.Request.Method = "GET" ∨ c.Request.Method = "HEAD" then
        some "text/html; charset=utf-8" else none)
      (if c.Request.Method = "GET" then
        "<a href=\"" ++ htmlEscape url ++ "\">" ++ StatusText code ++ "</a>.\n\n" else "")) }

/-- Call `c.Abort()`. -/
def Context.Abort (c : Context) : Context :=
  { c with aborted := true }

/-- Status code of the response, if one was written. -/
def Context.status (c : Context) : Option Nat :=
  match c.written with
  | some (Render.json code _) => some code
  | some (Render.text code _) => some code
  | some (Render.redirect code _ _ _) => some code
  | none => none

/-- Redirect target of the response, if the response is a redirect. -/
def Context.location (c : Context) : Option String :=
  match c.written with
  | some (Render.redirect _ loc _ _) => some loc
  | _ => none

/-- Value of a field of the JSON object of the response, if there is one. -/
def Context.jsonField (c : Context) (key : String) : Option String :=
  match c.written with
  | some (Render.json _ obj) => obj.lookup key
  | _ => none

/-- Plain-text body of the response, if the response is plain text. -/
def Context.textBody (c : Context) : Option String :=
  match c.written with
  | some (Render.text _ body) => some body
  | _ => none

/-- The `Content-Type` header of a redirect response, if it has one. -/
def Context.redirectContentType (c : Context) : Option String :=
  match c.written with
  | some (Render.redirect _ _ ct _) => ct
  | _ => none

/-- The body of a redirect response. -/
def Context.redirectBody (c : Context) : Option String :=
  match c.written with
  | some (Render.redirect _ _ _ body) => some body
  | _ => none

/-- The response with the field `key` removed from its JSON object, if any. -/
def Context.withoutField (c : Context) (key : String) : Option Render :=
  match c.written with
  | some (Render.json code obj) => some (Render.json code (obj.filter (fun kv => kv.1 != key)))
  | w => w

/-! ## internal/handlers/handlers.go -/

/-- The type `Handler` (no fields). -/
structure Handler where
  deriving DecidableEq, Repr

/-- Function `NewHandler`. -/
def NewHandler : Handler := {}

/-- Method `Handler.Index`. -/
def Handler.Index (_h : Handler) (c : Context) : Context :=
  c.PlainString StatusOK "Hello World!"

/-! ## internal/middlewares/versioning.go -/

/-- The entries of the map literal `globalPaths`. -/
def globalPathsEntries : List (String × Bool) :=
  [("/", true), ("/version", true)]

/-- Index expression `globalPaths[p]`: the stored value, or `false` for a missing key. -/
def globalPaths (p : String) : Bool :=
  (globalPathsEntries.lookup p).getD false

/-- The type `VersioningMiddleware`. -/
structure VersioningMiddleware where
  ApiVersion : String
  deriving DecidableEq, Repr

/-- Function `NewVersioningMiddleware`. -/
def NewVersioningMiddleware (appVersion : String) : VersioningMiddleware :=
  { ApiVersion := appVersion }

/-- The handler returned by `VersioningMiddleware.EnsureVersion`. -/
def VersioningMiddleware.EnsureVersion (m : VersioningMiddleware) (c : Context) : Context :=
  let requestedPath := c.Request.Path
  let method := c.Request.Method
  if globalPaths requestedPath then
    c.JSON StatusMethodNotAllowed
      [("error", "Method not allowed for this endpoint"),
       ("path", requestedPath),
       ("method", method)]
  else
    let newPath := "/" ++ m.ApiVersion ++ requestedPath
    (c.Redirect StatusPermanentRedirect newPath).Abort

/-! ## server.go -/

/-- The package variables `Version`, `Commit`, `BuildDate`, set before `main` runs. -/
structure Build where
  Version : String
  Commit : String
  BuildDate : String
  deriving DecidableEq, Repr

/-- The handlers `main` registers. -/
inductive HandlerName where
  | versionInfo
  | Index
  | EnsureVersion
  deriving DecidableEq, Repr

/-- A registered route. -/
structure Route where
  Method : String
  Path : String
  handler : HandlerName
  deriving DecidableEq, Repr

/-- The router: registered routes in registration order and the fallback handler. -/
structure Engine where
  routes : List Route
  noRoute : Option HandlerName
  deriving DecidableEq, Repr

/-- A route group: its path prefix. -/
structure RouterGroup where
  basePath : String
  deriving DecidableEq, Repr

/-- Call `gin.Default()`: no routes, no fallback; the base path of the root group
is `/`. -/
def Engine.Default : Engine :=
  { routes := [], noRoute := none }

/-- The framework call `r.Group(relativePath)` on the root router: the base path
of the new group is the framework join of the root base path `/` and the relative
path. -/
def Engine.Group (_r : Engine) (relativePath : String) : RouterGroup :=
  { basePath := joinPaths "/" relativePath }

/-- The framework call `group.GET(relativePath, h)`: the route registered is the
framework join of the group base path and the relative path. -/
def Engine.groupGET (r : Engine) (g : RouterGroup) (relativePath : String)
    (h : HandlerName) : Engine :=
  { r with routes := r.routes ++
      [{ Method := "GET", Path := joinPaths g.basePath relativePath, handler := h }] }

/-- Call `r.GET(path, h)` on the root router (base path `/`). -/
def Engine.GET (r : Engine) (path : String) (h : HandlerName) : Engine :=
  r.groupGET { basePath := "/" } path h

/-- Call `r.NoRoute(h)`. -/
def Engine.NoRoute (r : Engine) (h : HandlerName) : Engine :=
  { r with noRoute := some h }

/-- The absolute path under which `main` registers the Index handler: the group
`"/" + Version` of the root router, then `GET "/"` in that group. -/
def versionedRoot (version : String) : String :=
  joinPaths (joinPaths "/" ("/" ++ version)) "/"

/-- The router built by `main`. -/
def router (b : Build) : Engine :=
  let r := Engine.Default
  let r := r.GET "/version" HandlerName.versionInfo
  let v1 := r.Group ("/" ++ b.Version)
  let r := r.groupGET v1 "/" HandlerName.Index
  r.NoRoute HandlerName.EnsureVersion

/-- The closure `main` registers for `GET /version`. -/
def versionInfo (b : Build) (c : Context) : Context :=
  c.JSON StatusOK
    [("version", b.Version),
     ("commit", b.Commit),
     ("buildDate", b.BuildDate)]

/-- The handler a name stands for, with the values `main` constructs. -/
def runHandler (b : Build) : HandlerName → Context → Context
  | HandlerName.versionInfo => versionInfo b
  | HandlerName.Index => NewHandler.Index
  | HandlerName.EnsureVersion => (NewVersioningMiddleware b.Version).EnsureVersion

/-- Modelled from the spec: the framework router's lookup, "exact match against
registered routes" on method and path; the first registered match wins. What the
framework does beyond that (a `:` or `*` in a registered path is a wildcard, and a
`GET` whose path differs from a route by a final slash is redirected) is not part
of this lookup; the properties below are stated where it plays no part. -/
def Engine.findRoute (e : Engine) (req : Request) : Option HandlerName :=
  (e.routes.find? (fun rt => rt.Method == req.Method && rt.Path == req.Path)).map Route.handler

/-- Modelled from the spec: dispatch of one request, "on match, the bound handler
runs; on no match, the Versioning Redirector runs". The name of the handler that
will run. -/
def Engine.selectHandler (e : Engine) (req : Request) : Option HandlerName :=
  match e.findRoute req with
  | some h => some h
  | none => e.noRoute

/-- One request served by the process started by `main`. -/
def serve (b : Build) (req : Request) : Context :=
  match (router b).selectHandler req with
  | some h => runHandler b h (Context.fresh req)
  | none => (Context.fresh req).PlainString StatusNotFound "404 page not found"

/-- A sequence of requests served by one process: the package variables are the
same for all of them. -/
def serveAll (b : Build) (reqs : List Request) : List Context :=
  reqs.map (serve b)

/-! ## Vocabulary of the properties -/

/-- Go `strings.HasPrefix`. -/
def hasPrefix (s pre : String) : Bool :=
  pre.data.isPrefixOf s.data

/-- Go `strings.HasSuffix`. -/
def hasSuffix (s suf : String) : Bool :=
  suf.data.isSuffixOf s.data

/-- The request a client sends after following a redirect answered by the
redirector: same request, path replaced by the `Location` (a path on the same
server, without escapes, in the uses below). -/
def followRedirect (m : VersioningMiddleware) (req : Request) : Option Request :=
  match (m.EnsureVersion (Context.fresh req)).location with
  | some loc => some { req with Path := loc }
  | none => none

/-- The request reached after following `n` redirects of the redirector in a row. -/
def followRedirects (m : VersioningMiddleware) : Nat → Request → Option Request
  | 0, req => some req
  | n + 1, req =>
    match followRedirects m n req with
    | some r => followRedirect m r
    | none => none

/-- A character that `http.Redirect` and `url.Parse` take literally in a path:
printable ASCII other than the space, `?`, `#` and `%`. -/
def safeChar (c : Char) : Bool :=
  decide (33 ≤ c.toNat) && decide (c.toNat < 127) && c != '?' && c != '#' && c != '%'

/-- A path element `path.Clean` keeps: not empty, not `.`, not `..`. -/
def realElem (e : List Char) : Bool :=
  !e.isEmpty && e != ['.'] && e != ['.', '.']

/-- Elements of a clean rooted path after its leading slash: all but the last are
kept by `path.Clean`, the last is kept or empty (the path ends with a slash, or is
the root). -/
def plainElems (es : List (List Char)) : Bool :=
  es.dropLast.all realElem &&
    (match es.getLast? with
     | some e => e.isEmpty || realElem e
     | none => false)

/-- A plain clean path: it begins with a slash, is made of printable ASCII
characters other than the space, `?`, `#`, `%`, and its elements are non-empty and
neither `.` nor `..`, except that it may end with a slash. -/
def isPlainPath (t : String) : Bool :=
  match t.data with
  | '/' :: rest => rest.all safeChar && plainElems (splitSlash rest)
  | _ => false

/-- A version string made of path elements `path.Clean` keeps, such as `v2` or
`api/v2`. -/
def isPlainVersion (v : String) : Bool :=
  (splitSlash v.data).all realElem

/-- No `:` and no `*`, the characters the framework reads as wildcard markers in a
registered path. -/
def noWildcard (v : String) : Bool :=
  v.data.all (fun c => c != ':' && c != '*')

/-! ## Example inputs -/

/-- A request with the given method and path and nothing else. -/
def mkRequest (method path : String) : Request :=
  { Method := method, Path := path, RawQuery := "", Header := [], Body := "" }

/-- Example build metadata with version `v2`. -/
def buildV2 : Build :=
  { Version := "v2", Commit := "abc123", BuildDate := "2024-01-01" }

/-- The same request sent with another method. -/
def Request.withMethod (r : Request) (method : String) : Request :=
  { r with Method := method }

/-! ## Auxiliary facts -/

theorem globalPaths_iff (p : String) :
    globalPaths p = true ↔ p = "/" ∨ p = "/version" := by
  unfold globalPaths globalPathsEntries
  by_cases h1 : p = "/"
  · subst h1; simp [List.lookup]
  · by_cases h2 : p = "/version"
    · subst h2; decide
    · have e1 : (p == "/") = false := by simpa using h1
      have e2 : (p == "/version") = false := by simpa using h2
      simp [List.lookup, e1, e2, h1, h2]

theorem globalPaths_false_iff (p : String) :
    globalPaths p = false ↔ p ≠ "/" ∧ p ≠ "/version" := by
  rw [← Bool.not_eq_true, globalPaths_iff]; tauto

theorem EnsureVersion_global (m : VersioningMiddleware) (c : Context)
    (h : globalPaths c.Request.Path = true) :
    m.EnsureVersion c = c.JSON 405
      [("error", "Method not allowed for this endpoint"),
       ("path", c.Request.Path), ("method", c.Request.Method)] := by
  simp [VersioningMiddleware.EnsureVersion, h, StatusMethodNotAllowed]

theorem EnsureVersion_nonglobal (m : VersioningMiddleware) (c : Context)
    (h : globalPaths c.Request.Path = false) :
    m.EnsureVersion c = (c.Redirect 308 ("/" ++ m.ApiVersion ++ c.Request.Path)).Abort := by
  simp [VersioningMiddleware.EnsureVersion, h, StatusPermanentRedirect]

theorem hasPrefix_iff (s pre : String) :
    hasPrefix s pre = true ↔ ∃ t : String, s = pre ++ t := by
  unfold hasPrefix
  rw [List.isPrefixOf_iff_prefix]
  constructor
  · rintro ⟨t, ht⟩
    exact ⟨⟨t⟩, String.ext (by simp [← ht])⟩
  · rintro ⟨t, rfl⟩
    exact ⟨t.data, by simp⟩

theorem hasSuffix_append (s t : String) : hasSuffix (s ++ t) t = true := by
  unfold hasSuffix
  rw [List.isSuffixOf_iff_suffix]
  exact ⟨s.data, by simp⟩

theorem utf8ByteSize_append (s t : String) :
    (s ++ t).utf8ByteSize = s.utf8ByteSize + t.utf8ByteSize := by
  have h : ∀ u : String, u.utf8ByteSize = String.utf8Len u.data := fun u => by
    cases u; rfl
  rw [h, h, h, String.data_append, String.utf8Len_append]

theorem slash_utf8ByteSize : ("/" : String).utf8ByteSize = 1 := by decide

/-- A path that has a slash after its first character is no global path. -/
theorem globalPaths_slash_inside (v t : String) :
    globalPaths ("/" ++ v ++ ("/" ++ t)) = false := by
  rw [globalPaths_false_iff]
  constructor
  · intro h
    have h1 := congrArg String.data h
    simp at h1
  · intro h
    have h1 := congrArg String.data h
    have h2 : v.data ++ '/' :: t.data = ['v', 'e', 'r', 's', 'i', 'o', 'n'] := by
      simpa using h1
    have h3 : '/' ∈ v.data ++ '/' :: t.data := by simp
    rw [h2] at h3
    revert h3
    decide

/-! ## Path elements -/

theorem splitSlash_ne_nil (l : List Char) : splitSlash l ≠ [] := by
  cases l with
  | nil => simp [splitSlash]
  | cons c cs =>
    unfold splitSlash
    split
    · simp
    · split <;> simp

theorem splitSlash_slash (l : List Char) : splitSlash ('/' :: l) = [] :: splitSlash l := by
  simp [splitSlash]

theorem splitSlash_cons (c : Char) (l : List Char) (hc : c ≠ '/') :
    ∃ e es, splitSlash l = e :: es ∧ splitSlash (c :: l) = (c :: e) :: es := by
  cases h : splitSlash l with
  | nil => exact absurd h (splitSlash_ne_nil l)
  | cons e es => exact ⟨e, es, rfl, by simp [splitSlash, hc, h]⟩

theorem joinSlash_cons (e : List Char) (es : List (List Char)) (h : es ≠ []) :
    joinSlash (e :: es) = e ++ '/' :: joinSlash es := by
  cases es with
  | nil => exact absurd rfl h
  | cons e2 es2 => simp [joinSlash]

theorem joinSlash_splitSlash (l : List Char) : joinSlash (splitSlash l) = l := by
  induction l with
  | nil => simp [splitSlash, joinSlash]
  | cons c cs ih =>
    by_cases hc : c = '/'
    · subst hc
      rw [splitSlash_slash, joinSlash_cons _ _ (splitSlash_ne_nil cs), ih]
      rfl
    · obtain ⟨e, es, h1, h2⟩ := splitSlash_cons c cs hc
      rw [h2]
      rw [h1] at ih
      cases es with
      | nil => simpa [joinSlash] using ih
      | cons e2 es2 =>
        simp only [joinSlash] at ih ⊢
        rw [← ih]; rfl

theorem splitSlash_append_slash (a b : List Char) :
    splitSlash (a ++ '/' :: b) = splitSlash a ++ splitSlash b := by
  induction a with
  | nil => simp [splitSlash]
  | cons c cs ih =>
    by_cases hc : c = '/'
    · subst hc
      simp only [List.cons_append, splitSlash_slash, ih]
    · obtain ⟨e, es, h1, h2⟩ := splitSlash_cons c cs hc
      obtain ⟨e2, es2, h3, h4⟩ := splitSlash_cons c (cs ++ '/' :: b) hc
      rw [List.cons_append, h4, h2]
      rw [h1, h3] at ih
      simp only [List.cons_append, List.cons.injEq] at ih
      rw [ih.1, ih.2]
      rfl

theorem splitSlash_no_slash (l : List Char) : ∀ e ∈ splitSlash l, '/' ∉ e := by
  induction l with
  | nil => simp [splitSlash]
  | cons c cs ih =>
    by_cases hc : c = '/'
    · subst hc
      rw [splitSlash_slash]
      intro e he
      rcases List.mem_cons.1 he with h | h
      · subst h; simp
      · exact ih e h
    · obtain ⟨e0, es, h1, h2⟩ := splitSlash_cons c cs hc
      rw [h2]
      rw [h1] at ih
      intro e he
      rcases List.mem_cons.1 he with h | h
      · subst h
        intro hm
        rcases List.mem_cons.1 hm with h3 | h3
        · exact hc h3.symm
        · exact ih e0 (List.mem_cons_self _ _) h3
      · exact ih e (List.mem_cons_of_mem _ h)

/-! ## Cleaning a path whose elements are kept or empty -/

theorem realElem_iff (e : List Char) :
    realElem e = true ↔ e ≠ [] ∧ e ≠ ['.'] ∧ e ≠ ['.', '.'] := by
  simp [realElem, and_assoc]

theorem cleanStep_empty (r : Bool) (out : List (List Char)) : cleanStep r out [] = out := by
  simp [cleanStep]

theorem cleanStep_real (r : Bool) (out : List (List Char)) (e : List Char)
    (h : realElem e = true) : cleanStep r out e = e :: out := by
  obtain ⟨h1, h2, h3⟩ := (realElem_iff e).1 h
  simp [cleanStep, h1, h2, h3]

theorem foldl_cleanStep_kept (r : Bool) (es : List (List Char)) :
    ∀ acc : List (List Char), (∀ e ∈ es, e = [] ∨ realElem e = true) →
      es.foldl (cleanStep r) acc = (es.filter (fun e => !e.isEmpty)).reverse ++ acc := by
  induction es with
  | nil => intro acc _; simp
  | cons e es ih =>
    intro acc h
    have hrest : ∀ x ∈ es, x = [] ∨ realElem x = true :=
      fun x hx => h x (List.mem_cons_of_mem _ hx)
    rcases h e (List.mem_cons_self _ _) with he | he
    · subst he
      simp [cleanStep_empty, ih acc hrest]
    · have hne : e ≠ [] := ((realElem_iff e).1 he).1
      have hemp : e.isEmpty = false := by
        cases e with
        | nil => exact absurd rfl hne
        | cons _ _ => rfl
      simp [cleanStep_real r acc e he, ih (e :: acc) hrest, List.filter, hemp]

theorem pathClean_rooted (rest : List Char)
    (h : ∀ e ∈ splitSlash rest, e = [] ∨ realElem e = true) :
    pathClean ⟨'/' :: rest⟩
      = ⟨'/' :: joinSlash ((splitSlash rest).filter (fun e => !e.isEmpty))⟩ := by
  have hne : (⟨'/' :: rest⟩ : String) ≠ "" := by
    intro e
    have := congrArg String.data e
    simp at this
  unfold pathClean
  rw [if_neg hne]
  simp only [List.head?_cons, decide_True, if_true, splitSlash_slash, List.foldl_cons,
    cleanStep_empty]
  rw [foldl_cleanStep_kept true _ [] h]
  simp

/-! ## Plain paths are left as they are -/

theorem joinSlash_concat (init : List (List Char)) (x : List Char) (h : init ≠ []) :
    joinSlash (init ++ [x]) = joinSlash init ++ '/' :: x := by
  induction init with
  | nil => exact absurd rfl h
  | cons e es ih =>
    cases es with
    | nil => simp [joinSlash]
    | cons e2 es2 =>
      have h2 : e2 :: es2 ≠ [] := by simp
      have ih2 := ih h2
      simp only [List.cons_append] at ih2 ⊢
      simp only [joinSlash]
      rw [ih2]
      simp

theorem joinSlash_last (L : List (List Char)) (hne : L ≠ [])
    (h : ∀ e ∈ L, e ≠ [] ∧ '/' ∉ e) :
    ∃ c, ('/' :: joinSlash L).getLast? = some c ∧ c ≠ '/' := by
  obtain ⟨init, x, rfl⟩ : ∃ init x, L = init ++ [x] :=
    ⟨L.dropLast, L.getLast hne, (List.dropLast_concat_getLast hne).symm⟩
  obtain ⟨hx1, hx2⟩ := h x (by simp)
  obtain ⟨c, hc⟩ : ∃ c, x.getLast? = some c := by
    cases hx : x.getLast? with
    | none => exact absurd (List.getLast?_eq_none_iff.1 hx) hx1
    | some c => exact ⟨c, rfl⟩
  have hcs : c ≠ '/' := fun e => hx2 (e ▸ List.mem_of_getLast?_eq_some hc)
  refine ⟨c, ?_, hcs⟩
  by_cases hi : init = []
  · subst hi
    simp only [List.nil_append, joinSlash]
    rw [show '/' :: x = ['/'] ++ x from rfl, List.getLast?_append_of_ne_nil _ hx1, hc]
  · rw [joinSlash_concat init x hi]
    rw [show '/' :: (joinSlash init ++ '/' :: x) = ('/' :: (joinSlash init ++ ['/'])) ++ x by simp,
      List.getLast?_append_of_ne_nil _ hx1, hc]

theorem plainElems_split (es : List (List Char)) (h : plainElems es = true) :
    ∃ init last, es = init ++ [last] ∧ (∀ e ∈ init, realElem e = true) ∧
      (last = [] ∨ realElem last = true) := by
  unfold plainElems at h
  cases hl : es.getLast? with
  | none => rw [hl] at h; simp at h
  | some last =>
    rw [hl] at h
    simp only [Bool.and_eq_true, List.all_eq_true, Bool.or_eq_true, List.isEmpty_iff] at h
    exact ⟨es.dropLast, last, (List.dropLast_append_getLast? last hl).symm, h.1, h.2⟩

theorem plainElems_concat (init : List (List Char)) (last : List Char)
    (h1 : ∀ e ∈ init, realElem e = true) (h2 : last = [] ∨ realElem last = true) :
    plainElems (init ++ [last]) = true := by
  unfold plainElems
  rw [List.getLast?_concat, List.dropLast_concat]
  simp only [Bool.and_eq_true, List.all_eq_true, Bool.or_eq_true, List.isEmpty_iff]
  exact ⟨h1, h2⟩

theorem filter_kept (init : List (List Char)) (h : ∀ e ∈ init, realElem e = true) :
    init.filter (fun e => !e.isEmpty) = init := by
  rw [List.filter_eq_self]
  intro e he
  have := ((realElem_iff e).1 (h e he)).1
  cases e with
  | nil => exact absurd rfl this
  | cons _ _ => rfl

/-- The rewriting `http.Redirect` applies to the path of its target (clean it, put
a final slash back) leaves a rooted path with plain elements as it is. -/
theorem clean_keeps_plain (rest : List Char) (h : plainElems (splitSlash rest) = true) :
    (if (('/' :: rest).getLast? == some '/') &&
          !((pathClean ⟨'/' :: rest⟩).data.getLast? == some '/')
      then pathClean ⟨'/' :: rest⟩ ++ "/" else pathClean ⟨'/' :: rest⟩)
      = ⟨'/' :: rest⟩ := by
  obtain ⟨init, last, hes, hinit, hlast⟩ := plainElems_split _ h
  have hall : ∀ e ∈ splitSlash rest, e = [] ∨ realElem e = true := by
    rw [hes]
    intro e he
    rcases List.mem_append.1 he with h1 | h1
    · exact Or.inr (hinit e h1)
    · rw [List.mem_singleton.1 h1]; exact hlast
  have hrest : rest = joinSlash (init ++ [last]) := by rw [← hes, joinSlash_splitSlash]
  have hclean := pathClean_rooted rest hall
  rw [hes, List.filter_append, filter_kept init hinit] at hclean
  rcases hlast with hl | hl
  · subst hl
    have hc : pathClean ⟨'/' :: rest⟩ = ⟨'/' :: joinSlash init⟩ := by
      rw [hclean]; simp
    rw [hc]
    by_cases hi : init = []
    · subst hi
      have : rest = [] := by rw [hrest]; rfl
      subst this
      rfl
    · have hr : rest = joinSlash init ++ ['/'] := by rw [hrest, joinSlash_concat init [] hi]
      obtain ⟨c, hc1, hc2⟩ := joinSlash_last init hi (fun e he =>
        ⟨((realElem_iff e).1 (hinit e he)).1,
          splitSlash_no_slash rest e (by rw [hes]; exact List.mem_append_left _ he)⟩)
      have h1 : (('/' :: rest).getLast? == some '/') = true := by
        rw [hr, show '/' :: (joinSlash init ++ ['/']) = ('/' :: joinSlash init) ++ ['/'] by simp,
          List.getLast?_concat]
        simp
      have h2 : ((⟨'/' :: joinSlash init⟩ : String).data.getLast? == some '/') = false := by
        show (('/' :: joinSlash init).getLast? == some '/') = false
        rw [hc1]
        simpa using hc2
      rw [h1, h2]
      simp only [Bool.not_false, Bool.and_self, if_true]
      apply String.ext
      rw [String.data_append, hr]
      rfl
  · have hne : last ≠ [] := ((realElem_iff last).1 hl).1
    have hf : [last].filter (fun e => !e.isEmpty) = [last] :=
      filter_kept [last] (by simpa using hl)
    have hc : pathClean ⟨'/' :: rest⟩ = ⟨'/' :: rest⟩ := by
      rw [hclean, hf, ← hrest]
    rw [hc]
    cases (('/' :: rest).getLast? == some '/') <;> rfl

theorem safeChar_iff (c : Char) :
    safeChar c = true ↔
      33 ≤ c.toNat ∧ c.toNat < 127 ∧ c ≠ '?' ∧ c ≠ '#' ∧ c ≠ '%' := by
  simp [safeChar, and_assoc]

theorem safeChar_slash : safeChar '/' = true := by decide

theorem validEscapes_no_percent (l : List Char) (h : ∀ c ∈ l, c ≠ '%') :
    validEscapes l = true := by
  induction l with
  | nil => simp [validEscapes]
  | cons c cs ih =>
    have hc : c ≠ '%' := h c (List.mem_cons_self _ _)
    have hcs : validEscapes cs = true := ih (fun x hx => h x (List.mem_cons_of_mem _ hx))
    unfold validEscapes
    split
    · rename_i heq; simp at heq
    · rename_i heq
      simp only [List.cons.injEq] at heq
      exact absurd heq.1 hc
    · rename_i heq
      simp only [List.cons.injEq] at heq
      exact absurd heq.1 hc
    · rename_i heq
      simp only [List.cons.injEq] at heq
      rw [← heq.2]; exact hcs

theorem takeWhile_all (q : Char → Bool) (l : List Char) (h : ∀ c ∈ l, q c = true) :
    l.takeWhile q = l ∧ l.dropWhile q = [] :=
  ⟨List.takeWhile_eq_self_iff.2 h, List.dropWhile_eq_nil_iff.2 h⟩

theorem isPlainPath_data (t : String) (h : isPlainPath t = true) :
    ∃ rest, t.data = '/' :: rest ∧ (∀ c ∈ rest, safeChar c = true) ∧
      plainElems (splitSlash rest) = true := by
  unfold isPlainPath at h
  split at h
  · rename_i rest heq
    simp only [Bool.and_eq_true, List.all_eq_true] at h
    exact ⟨rest, heq, h.1, h.2⟩
  · simp at h

theorem parsesWithoutHost_plain (rest : List Char) (hs : ∀ c ∈ rest, safeChar c = true)
    (hp : plainElems (splitSlash rest) = true) : parsesWithoutHost ('/' :: rest) = true := by
  have hall : ∀ c ∈ '/' :: rest, safeChar c = true := by
    intro c hc
    rcases List.mem_cons.1 hc with h | h
    · rw [h]; exact safeChar_slash
    · exact hs c h
  have h1 := takeWhile_all (fun c => c != '#') ('/' :: rest)
    (fun c hc => by simpa using ((safeChar_iff c).1 (hall c hc)).2.2.2.1)
  have h2 := takeWhile_all (fun c => c != '?') ('/' :: rest)
    (fun c hc => by simpa using ((safeChar_iff c).1 (hall c hc)).2.2.1)
  have h3 : containsCTL ('/' :: rest) = false := by
    unfold containsCTL
    rw [List.any_eq_false]
    intro c hc
    obtain ⟨a, b, _⟩ := (safeChar_iff c).1 (hall c hc)
    simp only [Bool.or_eq_true, decide_eq_true_eq, not_or]
    omega
  have h4 : validEscapes ('/' :: rest) = true :=
    validEscapes_no_percent _ (fun c hc => ((safeChar_iff c).1 (hall c hc)).2.2.2.2)
  have h5 : ∀ r, rest ≠ '/' :: r := by
    intro r e
    subst e
    rw [splitSlash_slash] at hp
    obtain ⟨init, last, hes, hinit, _⟩ := plainElems_split _ hp
    cases init with
    | nil =>
      simp only [List.nil_append, List.cons.injEq] at hes
      exact splitSlash_ne_nil r hes.2
    | cons e0 init0 =>
      simp only [List.cons_append, List.cons.injEq] at hes
      have := hinit e0 (List.mem_cons_self _ _)
      rw [← hes.1] at this
      simp [realElem] at this
  unfold parsesWithoutHost
  simp only [h1.1, h1.2, h2.1, h3, List.drop_nil, List.isEmpty_nil, Bool.not_false,
    Bool.true_and, Bool.true_or, Bool.and_true]
  split
  · rename_i r heq
    simp only [List.cons.injEq, true_and] at heq
    exact absurd heq (h5 _)
  · rename_i r _ heq
    simp only [List.cons.injEq, true_and] at heq
    exact absurd heq (h5 _)
  · exact h4

theorem redirectURL_plain (t : String) (h : isPlainPath t = true) : redirectURL t = t := by
  obtain ⟨rest, hd, hs, hp⟩ := isPlainPath_data t h
  have hall : ∀ c ∈ '/' :: rest, safeChar c = true := by
    intro c hc
    rcases List.mem_cons.1 hc with h | h
    · rw [h]; exact safeChar_slash
    · exact hs c h
  have h2 := takeWhile_all (fun c => c != '?') ('/' :: rest)
    (fun c hc => by simpa using ((safeChar_iff c).1 (hall c hc)).2.2.1)
  have ht : t = ⟨'/' :: rest⟩ := String.ext hd
  unfold redirectURL
  rw [hd, parsesWithoutHost_plain rest hs hp, if_pos rfl]
  simp only [h2.1, h2.2]
  rw [clean_keeps_plain rest hp, ht]
  apply String.ext
  simp

theorem hexEscapeNonASCII_ascii (t : String) (h : ∀ c ∈ t.data, c.toNat < 128) :
    hexEscapeNonASCII t = t := by
  unfold hexEscapeNonASCII
  apply String.ext
  show (t.data.flatMap _) = t.data
  have : ∀ l : List Char, (∀ c ∈ l, c.toNat < 128) →
      l.flatMap (fun c =>
        if c.toNat < 128 then [c]
        else (String.utf8EncodeChar c).flatMap (fun b =>
          ['%', hexDigit (b.toNat / 16), hexDigit (b.toNat % 16)])) = l := by
    intro l
    induction l with
    | nil => intro _; rfl
    | cons c cs ih =>
      intro hl
      rw [List.flatMap_cons, if_pos (hl c (List.mem_cons_self _ _)),
        ih (fun x hx => hl x (List.mem_cons_of_mem _ hx))]
      rfl
  exact this t.data h

/-- The `Location` written for a plain clean target is the target itself. -/
theorem redirect_location_plain (t : String) (h : isPlainPath t = true) :
    hexEscapeNonASCII (redirectURL t) = t := by
  rw [redirectURL_plain t h]
  obtain ⟨rest, hd, hs, _⟩ := isPlainPath_data t h
  apply hexEscapeNonASCII_ascii
  rw [hd]
  intro c hc
  rcases List.mem_cons.1 hc with h1 | h1
  · rw [h1]; decide
  · have := ((safeChar_iff c).1 (hs c h1)).2.1
    omega

/-! ## The route of the Index handler -/

theorem pathJoin_data (a b : String) (ha : a ≠ "") (hb : b ≠ "") :
    pathJoin a b = pathClean ⟨a.data ++ '/' :: b.data⟩ := by
  unfold pathJoin
  rw [if_neg ha, if_neg hb]
  congr 1
  apply String.ext
  simp [String.data_append]

theorem string_ne_empty (s : String) (c : Char) (l : List Char) (h : s.data = c :: l) :
    s ≠ "" := by
  intro e
  rw [e] at h
  simp at h

theorem isPlainVersion_last (v : String) (h : isPlainVersion v = true) :
    ∃ c, ('/' :: v.data).getLast? = some c ∧ c ≠ '/' := by
  have h1 : ∀ e ∈ splitSlash v.data, realElem e = true := by
    simpa [isPlainVersion] using h
  have := joinSlash_last (splitSlash v.data) (splitSlash_ne_nil _)
    (fun e he => ⟨((realElem_iff e).1 (h1 e he)).1, splitSlash_no_slash _ e he⟩)
  rwa [joinSlash_splitSlash] at this

theorem groupBase_plain (v : String) (h : isPlainVersion v = true) :
    joinPaths "/" ("/" ++ v) = "/" ++ v := by
  have h1 : ∀ e ∈ splitSlash v.data, realElem e = true := by
    simpa [isPlainVersion] using h
  have hb : "/" ++ v ≠ "" := string_ne_empty _ '/' v.data (by simp)
  have hj : pathJoin "/" ("/" ++ v) = "/" ++ v := by
    rw [pathJoin_data _ _ (by decide) hb]
    have e : ("/" : String).data ++ '/' :: ("/" ++ v).data = '/' :: ('/' :: '/' :: v.data) := by
      simp
    rw [e, pathClean_rooted]
    · apply String.ext
      simp only [splitSlash_slash, String.data_append]
      simp only [List.filter, List.isEmpty_nil, Bool.not_true]
      rw [filter_kept _ h1, joinSlash_splitSlash]
      rfl
    · intro x hx
      simp only [splitSlash_slash, List.mem_cons] at hx
      rcases hx with hx | hx | hx
      · exact Or.inl hx
      · exact Or.inl hx
      · exact Or.inr (h1 x hx)
  obtain ⟨c, hc1, hc2⟩ := isPlainVersion_last v h
  have hl : lastChar ("/" ++ v) = some c := by
    unfold lastChar
    rw [String.data_append]
    exact hc1
  unfold joinPaths
  rw [if_neg hb]
  simp only [hj, hl]
  rw [if_neg]
  intro hcon
  exact hc2 (Option.some.inj hcon.1)

/-- For a version made of plain path elements, the Index handler is registered
under `"/" + version + "/"`. -/
theorem versionedRoot_plain (v : String) (h : isPlainVersion v = true) :
    versionedRoot v = "/" ++ v ++ "/" := by
  have h1 : ∀ e ∈ splitSlash v.data, realElem e = true := by
    simpa [isPlainVersion] using h
  have hb : "/" ++ v ≠ "" := string_ne_empty _ '/' v.data (by simp)
  have hj : pathJoin ("/" ++ v) "/" = "/" ++ v := by
    rw [pathJoin_data _ _ hb (by decide)]
    have e : ("/" ++ v).data ++ '/' :: ("/" : String).data = '/' :: (v.data ++ '/' :: ['/']) := by
      simp
    rw [e, pathClean_rooted]
    · apply String.ext
      rw [splitSlash_append_slash, List.filter_append, filter_kept _ h1]
      simp only [String.data_append]
      have e2 : List.filter (fun e : List Char => !e.isEmpty) (splitSlash ['/']) = [] := by
        decide
      rw [e2, List.append_nil, joinSlash_splitSlash]
      rfl
    · intro x hx
      rw [splitSlash_append_slash] at hx
      rcases List.mem_append.1 hx with hx | hx
      · exact Or.inr (h1 x hx)
      · simp [splitSlash] at hx
        exact Or.inl hx
  obtain ⟨c, hc1, hc2⟩ := isPlainVersion_last v h
  have hl : lastChar ("/" ++ v) = some c := by
    unfold lastChar
    rw [String.data_append]
    exact hc1
  unfold versionedRoot
  rw [groupBase_plain v h]
  unfold joinPaths
  rw [if_neg (by decide)]
  simp only [hj, hl]
  rw [if_pos]
  refine ⟨by decide, ?_⟩
  intro hcon
  exact hc2 (Option.some.inj hcon)

theorem router_routes (b : Build) :
    (router b).routes =
      [{ Method := "GET", Path := "/version", handler := HandlerName.versionInfo },
       { Method := "GET", Path := versionedRoot b.Version, handler := HandlerName.Index }] := by
  have h : joinPaths "/" "/version" = "/version" := by decide
  simp [router, Engine.GET, Engine.groupGET, Engine.Group, Engine.NoRoute, Engine.Default, h,
    versionedRoot]

theorem router_noRoute (b : Build) : (router b).noRoute = some HandlerName.EnsureVersion := rfl

/-- The versioned root route is not the path of the version endpoint. -/
theorem versioned_root_ne_version (v : String) : "/" ++ v ++ "/" ≠ "/version" := by
  have h := globalPaths_slash_inside v ""
  rw [globalPaths_false_iff] at h
  have e : ("/" : String) ++ "" = "/" := by decide
  rw [e] at h
  exact h.2

theorem selectHandler_version (b : Build) (req : Request)
    (hm : req.Method = "GET") (hp : req.Path = "/version") :
    (router b).selectHandler req = some HandlerName.versionInfo := by
  rw [Engine.selectHandler, Engine.findRoute, router_routes]
  simp [List.find?, hm, hp]

theorem findRoute_index (b : Build) (req : Request)
    (hm : req.Method = "GET") (hp : req.Path = "/" ++ b.Version ++ "/")
    (hv : isPlainVersion b.Version = true) :
    (router b).findRoute req = some HandlerName.Index := by
  have h : ("/version" == "/" ++ b.Version ++ "/") = false := by
    simpa using fun e => versioned_root_ne_version b.Version e.symm
  rw [Engine.findRoute, router_routes, versionedRoot_plain _ hv]
  simp [List.find?, hm, hp, h]

theorem selectHandler_root (b : Build) (req : Request) (hp : req.Path = "/")
    (hroot : versionedRoot b.Version ≠ "/") :
    (router b).selectHandler req = some HandlerName.EnsureVersion := by
  have h1 : ("/version" == ("/" : String)) = false := by decide
  have h2 : (versionedRoot b.Version == ("/" : String)) = false := by
    simpa using hroot
  rw [Engine.selectHandler, Engine.findRoute, router_routes, router_noRoute]
  simp [List.find?, hp, h1, h2]

theorem selectHandler_version_other (b : Build) (req : Request)
    (hm : req.Method ≠ "GET") (hp : req.Path = "/version") :
    (router b).findRoute req = none ∧
      (router b).selectHandler req = some HandlerName.EnsureVersion := by
  have h1 : ("GET" == req.Method) = false := by
    simpa using fun e : "GET" = req.Method => hm e.symm
  rw [Engine.selectHandler, Engine.findRoute, router_routes, router_noRoute]
  simp [List.find?, hp, h1]

theorem plainElems_append (A B : List (List Char)) (hB : B ≠ []) :
    plainElems (A ++ B) = (A.all realElem && plainElems B) := by
  unfold plainElems
  rw [List.dropLast_append_of_ne_nil A hB, List.getLast?_append_of_ne_nil _ hB, List.all_append,
    Bool.and_assoc]

theorem isPlainPath_mk (t : String) (rest : List Char) (hd : t.data = '/' :: rest)
    (hs : ∀ c ∈ rest, safeChar c = true) (hp : plainElems (splitSlash rest) = true) :
    isPlainPath t = true := by
  unfold isPlainPath
  rw [hd]
  simp only [Bool.and_eq_true, List.all_eq_true]
  exact ⟨hs, hp⟩

/-- Prefixing a plain target once more with the version segment gives a plain
target again, when the path begins with a slash. -/
theorem isPlainPath_step (v p : String) (h : isPlainPath ("/" ++ v ++ p) = true)
    (hpre : hasPrefix p "/" = true) :
    isPlainPath ("/" ++ v ++ ("/" ++ v ++ p)) = true := by
  obtain ⟨q, rfl⟩ := (hasPrefix_iff _ _).1 hpre
  obtain ⟨rest, hd, hs, hp⟩ := isPlainPath_data _ h
  have hr : rest = v.data ++ '/' :: q.data := by
    have : ("/" ++ v ++ ("/" ++ q)).data = '/' :: (v.data ++ '/' :: q.data) := by simp
    rw [this] at hd
    exact (List.cons.inj hd).2.symm
  subst hr
  rw [splitSlash_append_slash, plainElems_append _ _ (splitSlash_ne_nil _)] at hp
  simp only [Bool.and_eq_true] at hp
  apply isPlainPath_mk _ (v.data ++ '/' :: (v.data ++ '/' :: q.data))
  · simp
  · intro c hc
    rcases List.mem_append.1 hc with h1 | h1
    · exact hs c (List.mem_append_left _ h1)
    · rcases List.mem_cons.1 h1 with h2 | h2
      · rw [h2]; exact safeChar_slash
      · exact hs c h2
  · rw [splitSlash_append_slash, splitSlash_append_slash,
      plainElems_append _ _ (List.append_ne_nil_of_right_ne_nil _ (splitSlash_ne_nil _)),
      plainElems_append _ _ (splitSlash_ne_nil _)]
    simp only [Bool.and_eq_true]
    exact ⟨hp.1, hp.1, hp.2⟩

theorem EnsureVersion_location (m : VersioningMiddleware) (c : Context)
    (h : globalPaths c.Request.Path = false) :
    (m.EnsureVersion c).status = some 308 ∧ (m.EnsureVersion c).aborted = true ∧
      (m.EnsureVersion c).location
        = some (hexEscapeNonASCII (redirectURL ("/" ++ m.ApiVersion ++ c.Request.Path))) := by
  rw [EnsureVersion_nonglobal _ _ h]
  exact ⟨rfl, rfl, rfl⟩

/-! ## The versioning redirector -/

/-- C1, as stated, fails: with version `v2`, the non-global path `/a//b` is
answered with `Location` `/v2/a/b`, which is not `"/" + version + path`. -/
theorem redirect_location_cleaned :
    ("/a//b" : String) ≠ "/" ∧ ("/a//b" : String) ≠ "/version" ∧
      ((NewVersioningMiddleware "v2").EnsureVersion
        (Context.fresh (mkRequest "GET" "/a//b"))).location = some "/v2/a/b" ∧
      ¬ (((NewVersioningMiddleware "v2").EnsureVersion
        (Context.fresh (mkRequest "GET" "/a//b"))).location
          = some ("/" ++ "v2" ++ "/a//b")) := by
  decide

/-- C1, amended: for every configured version, method and path outside the
global-path set `/`, `/version`, `EnsureVersion` answers 308 with a `Location` and
aborts further processing; the `Location` is exactly `"/" + version + path`
whenever that target is a plain clean path (printable ASCII without space, `?`,
`#`, `%`, with no empty, `.` or `..` element). -/
theorem EnsureVersion_redirects_nonglobal (v : String) (c : Context)
    (h1 : c.Request.Path ≠ "/") (h2 : c.Request.Path ≠ "/version") :
    ((NewVersioningMiddleware v).EnsureVersion c).status = some 308 ∧
      ((NewVersioningMiddleware v).EnsureVersion c).aborted = true ∧
      (∃ loc, ((NewVersioningMiddleware v).EnsureVersion c).location = some loc) ∧
      (isPlainPath ("/" ++ v ++ c.Request.Path) = true →
        ((NewVersioningMiddleware v).EnsureVersion c).location
          = some ("/" ++ v ++ c.Request.Path)) := by
  have h : globalPaths c.Request.Path = false := (globalPaths_false_iff _).2 ⟨h1, h2⟩
  obtain ⟨hs, ha, hl⟩ := EnsureVersion_location (NewVersioningMiddleware v) c h
  refine ⟨hs, ha, ⟨_, hl⟩, ?_⟩
  intro hp
  rw [hl]
  exact congrArg some (redirect_location_plain _ hp)

theorem EnsureVersion_redirects_nonglobal_witness :
    ((NewVersioningMiddleware "v2").EnsureVersion
        (Context.fresh (mkRequest "GET" "/unknown"))).status = some 308 ∧
      ((NewVersioningMiddleware "v2").EnsureVersion
        (Context.fresh (mkRequest "GET" "/unknown"))).aborted = true ∧
      ((NewVersioningMiddleware "v2").EnsureVersion
        (Context.fresh (mkRequest "GET" "/unknown"))).location
          = some ("/" ++ "v2" ++ "/unknown") :=
  have h := EnsureVersion_redirects_nonglobal "v2" (Context.fresh (mkRequest "GET" "/unknown"))
    (by decide) (by decide)
  ⟨h.1, h.2.1, h.2.2.2 (by decide)⟩

/-- C2: for every path in the global-path set `/`, `/version`, every method and
every configured version, `EnsureVersion` answers 405 with a body whose fields are
the fixed error message, the requested path and the method, and it issues no
redirect. -/
theorem EnsureVersion_rejects_global (v : String) (c : Context)
    (h : c.Request.Path = "/" ∨ c.Request.Path = "/version") :
    ((NewVersioningMiddleware v).EnsureVersion c).status = some 405 ∧
      ((NewVersioningMiddleware v).EnsureVersion c).written
        = some (Render.json 405
            [("error", "Method not allowed for this endpoint"),
             ("path", c.Request.Path), ("method", c.Request.Method)]) ∧
      ((NewVersioningMiddleware v).EnsureVersion c).jsonField "error"
        = some "Method not allowed for this endpoint" ∧
      ((NewVersioningMiddleware v).EnsureVersion c).jsonField "path"
        = some c.Request.Path ∧
      ((NewVersioningMiddleware v).EnsureVersion c).jsonField "method"
        = some c.Request.Method ∧
      ((NewVersioningMiddleware v).EnsureVersion c).location = none := by
  have hg : globalPaths c.Request.Path = true := (globalPaths_iff _).2 h
  rw [EnsureVersion_global _ _ hg]
  have e1 : ("error" == ("error" : String)) = true := by decide
  have e2 : ("path" == ("error" : String)) = false := by decide
  have e3 : ("path" == ("path" : String)) = true := by decide
  have e4 : ("method" == ("error" : String)) = false := by decide
  have e5 : ("method" == ("path" : String)) = false := by decide
  have e6 : ("method" == ("method" : String)) = true := by decide
  refine ⟨rfl, rfl, ?_, ?_, ?_, rfl⟩
  · simp [Context.jsonField, Context.JSON, List.lookup, e1]
  · simp [Context.jsonField, Context.JSON, List.lookup, e2, e3]
  · simp [Context.jsonField, Context.JSON, List.lookup, e4, e5, e6]

theorem EnsureVersion_rejects_global_witness :
    ((NewVersioningMiddleware "v2").EnsureVersion
        (Context.fresh (mkRequest "POST" "/version"))).status = some 405 ∧
      ((NewVersioningMiddleware "v2").EnsureVersion
        (Context.fresh (mkRequest "POST" "/version"))).jsonField "path" = some "/version" ∧
      ((NewVersioningMiddleware "v2").EnsureVersion
        (Context.fresh (mkRequest "POST" "/version"))).jsonField "method" = some "POST" :=
  have h := EnsureVersion_rejects_global "v2" (Context.fresh (mkRequest "POST" "/version"))
    (Or.inr rfl)
  ⟨h.1, h.2.2.2.1, h.2.2.2.2.1⟩

/-! ## Routing set up by `main` -/

/-- C3, as stated, fails: with version `v2`, a `POST` to `/version` is not
answered 308 and is not redirected to `/v2/version`; `/version` is a global path. -/
theorem post_version_not_redirected :
    globalPaths "/version" = true ∧
      ¬ ((serve buildV2 (mkRequest "POST" "/version")).status = some 308) ∧
      ¬ ((serve buildV2 (mkRequest "POST" "/version")).location = some "/v2/version") := by
  decide

/-- C3, amended: for a request to `/version` with any method other than `GET`, no
registered route matches, the request falls through to the redirector, and the
redirector treats `/version` as a global path: it answers 405 with the error
message, the path `/version` and the method in the body, and issues no redirect. -/
theorem non_get_version_rejected (b : Build) (req : Request)
    (hm : req.Method ≠ "GET") (hp : req.Path = "/version") :
    (router b).findRoute req = none ∧
      (router b).selectHandler req = some HandlerName.EnsureVersion ∧
      globalPaths req.Path = true ∧
      (serve b req).status = some 405 ∧
      (serve b req).written
        = some (Render.json 405
            [("error", "Method not allowed for this endpoint"),
             ("path", "/version"), ("method", req.Method)]) ∧
      (serve b req).location = none := by
  obtain ⟨hf, hs⟩ := selectHandler_version_other b req hm hp
  have hg : globalPaths (Context.fresh req).Request.Path = true :=
    (globalPaths_iff _).2 (Or.inr hp)
  have e : serve b req = (Context.fresh req).JSON 405
      [("error", "Method not allowed for this endpoint"),
       ("path", "/version"), ("method", req.Method)] := by
    simp only [serve, hs, runHandler]
    rw [EnsureVersion_global _ _ hg]
    simp [Context.fresh, hp]
  refine ⟨hf, hs, hg, ?_, ?_, ?_⟩ <;> rw [e] <;> rfl

theorem non_get_version_rejected_witness :
    (serve buildV2 (mkRequest "DELETE" "/version")).status = some 405 ∧
      (serve buildV2 (mkRequest "DELETE" "/version")).location = none :=
  have h := non_get_version_rejected buildV2 (mkRequest "DELETE" "/version")
    (by decide) rfl
  ⟨h.2.2.2.1, h.2.2.2.2.2⟩

/-- C4, as stated, fails: with an empty version string (a build without injected
metadata) the Index handler is registered under `/`, and `GET /` is served by it
with 200 "Hello World!" instead of being answered 405. -/
theorem get_root_default_build_hello :
    (router { Version := "", Commit := "", BuildDate := "" }).selectHandler
        (mkRequest "GET" "/") = some HandlerName.Index ∧
      (serve { Version := "", Commit := "", BuildDate := "" } (mkRequest "GET" "/")).status
        = some 200 ∧
      (serve { Version := "", Commit := "", BuildDate := "" } (mkRequest "GET" "/")).textBody
        = some "Hello World!" ∧
      ¬ ((serve { Version := "", Commit := "", BuildDate := "" } (mkRequest "GET" "/")).status
        = some 405) := by
  decide

/-- C4, amended: for every configured version without wildcard characters for which
the route registered for the Index handler is not `/` itself, a `GET` request to
`/` is dispatched to the fallback redirector (not to the Index handler) and
answered 405 with body error = "Method not allowed for this endpoint", path = "/",
method = "GET"; it is not redirected. -/
theorem get_root_rejected (b : Build) (req : Request)
    (hm : req.Method = "GET") (hp : req.Path = "/")
    (hroot : versionedRoot b.Version ≠ "/") (_hw : noWildcard b.Version = true) :
    (router b).selectHandler req = some HandlerName.EnsureVersion ∧
      (serve b req).status = some 405 ∧
      (serve b req).written
        = some (Render.json 405
            [("error", "Method not allowed for this endpoint"),
             ("path", "/"), ("method", "GET")]) ∧
      (serve b req).location = none ∧
      (serve b req).textBody = none := by
  have hs := selectHandler_root b req hp hroot
  have hg : globalPaths (Context.fresh req).Request.Path = true :=
    (globalPaths_iff _).2 (Or.inl hp)
  have e : serve b req = (Context.fresh req).JSON 405
      [("error", "Method not allowed for this endpoint"),
       ("path", "/"), ("method", "GET")] := by
    simp only [serve, hs, runHandler]
    rw [EnsureVersion_global _ _ hg]
    simp [Context.fresh, hp, hm]
  refine ⟨hs, ?_, ?_, ?_, ?_⟩ <;> rw [e] <;> rfl

theorem get_root_rejected_witness :
    (serve buildV2 (mkRequest "GET" "/")).status = some 405 ∧
      (serve buildV2 (mkRequest "GET" "/")).location = none :=
  have h := get_root_rejected buildV2 (mkRequest "GET" "/") rfl rfl (by decide) (by decide)
  ⟨h.2.1, h.2.2.2.1⟩

/-- C5, as stated, fails: with version `.` the Index handler is registered under
`/`, so a `GET` request to `"/" + version + "/"`, that is `/./`, matches no route and
is answered 308 by the redirector, not 200. -/
theorem get_dot_version_root_not_hello :
    (router { Version := ".", Commit := "", BuildDate := "" }).findRoute
        (mkRequest "GET" ("/" ++ "." ++ "/")) = none ∧
      (serve { Version := ".", Commit := "", BuildDate := "" }
        (mkRequest "GET" ("/" ++ "." ++ "/"))).status = some 308 ∧
      ¬ ((serve { Version := ".", Commit := "", BuildDate := "" }
        (mkRequest "GET" ("/" ++ "." ++ "/"))).textBody = some "Hello World!") := by
  decide

/-- C5, amended: for every configured version `v` made of plain path elements
(non-empty, not `.`, not `..`, no wildcard characters), the Index handler is
registered under `"/" + v + "/"`, and a `GET` request to `"/" + v + "/"` is matched
to it and answered 200 with the plain-text body "Hello World!", whatever else the
request carries. -/
theorem get_versioned_root_hello (b : Build) (req : Request)
    (hm : req.Method = "GET") (hp : req.Path = "/" ++ b.Version ++ "/")
    (hv : isPlainVersion b.Version = true) (_hw : noWildcard b.Version = true) :
    versionedRoot b.Version = "/" ++ b.Version ++ "/" ∧
      (router b).findRoute req = some HandlerName.Index ∧
      (serve b req).status = some 200 ∧
      (serve b req).written = some (Render.text 200 "Hello World!") ∧
      (serve b req).textBody = some "Hello World!" := by
  have hf := findRoute_index b req hm hp hv
  have e : serve b req = (Context.fresh req).PlainString 200 "Hello World!" := by
    simp only [serve, Engine.selectHandler, hf, runHandler]
    rfl
  refine ⟨versionedRoot_plain _ hv, hf, ?_, ?_, ?_⟩ <;> rw [e] <;> rfl

theorem get_versioned_root_hello_witness :
    (serve buildV2 (mkRequest "GET" "/v2/")).status = some 200 ∧
      (serve buildV2 (mkRequest "GET" "/v2/")).textBody = some "Hello World!" :=
  have h := get_versioned_root_hello buildV2 (mkRequest "GET" "/v2/") rfl (by decide)
    (by decide) (by decide)
  ⟨h.2.2.1, h.2.2.2.2⟩

theorem serve_version (b : Build) (req : Request)
    (hm : req.Method = "GET") (hp : req.Path = "/version") :
    serve b req = (Context.fresh req).JSON 200
      [("version", b.Version), ("commit", b.Commit), ("buildDate", b.BuildDate)] := by
  have hs := selectHandler_version b req hm hp
  simp only [serve, hs, runHandler]
  rfl

/-- C6: for every triple of build metadata strings, `GET /version` is answered 200
with a body whose `version`, `commit` and `buildDate` fields are exactly those
strings, and any two `GET /version` requests served by the same process, at any
positions `i`, `j` of the sequence of requests it serves, get identical bodies. -/
theorem get_version_reports_build (b : Build) (reqs : List Request) (i j : Nat)
    (r1 r2 : Request) (hi : reqs[i]? = some r1) (hj : reqs[j]? = some r2)
    (hm1 : r1.Method = "GET") (hp1 : r1.Path = "/version")
    (hm2 : r2.Method = "GET") (hp2 : r2.Path = "/version") :
    (serve b r1).status = some 200 ∧
      (serve b r1).jsonField "version" = some b.Version ∧
      (serve b r1).jsonField "commit" = some b.Commit ∧
      (serve b r1).jsonField "buildDate" = some b.BuildDate ∧
      (serve b r1).written
        = some (Render.json 200
            [("version", b.Version), ("commit", b.Commit), ("buildDate", b.BuildDate)]) ∧
      (serveAll b reqs)[i]? = some (serve b r1) ∧
      (serveAll b reqs)[j]? = some (serve b r2) ∧
      (serve b r1).written = (serve b r2).written := by
  have e1 := serve_version b r1 hm1 hp1
  have e2 := serve_version b r2 hm2 hp2
  have k1 : ("version" == ("version" : String)) = true := by decide
  have k2 : ("commit" == ("version" : String)) = false := by decide
  have k3 : ("commit" == ("commit" : String)) = true := by decide
  have k4 : ("buildDate" == ("version" : String)) = false := by decide
  have k5 : ("buildDate" == ("commit" : String)) = false := by decide
  have k6 : ("buildDate" == ("buildDate" : String)) = true := by decide
  refine ⟨?_, ?_, ?_, ?_, ?_, ?_, ?_, ?_⟩
  · rw [e1]; rfl
  · rw [e1]; simp [Context.jsonField, Context.JSON, List.lookup, k1]
  · rw [e1]; simp [Context.jsonField, Context.JSON, List.lookup, k2, k3]
  · rw [e1]; simp [Context.jsonField, Context.JSON, List.lookup, k4, k5, k6]
  · rw [e1]; rfl
  · simp [serveAll, List.getElem?_map, hi]
  · simp [serveAll, List.getElem?_map, hj]
  · rw [e1, e2]; rfl

theorem get_version_reports_build_witness :
    (serve buildV2 (mkRequest "GET" "/version")).status = some 200 ∧
      (serve buildV2 (mkRequest "GET" "/version")).jsonField "version" = some "v2" ∧
      (serve buildV2 (mkRequest "GET" "/version")).jsonField "commit" = some "abc123" ∧
      (serve buildV2 (mkRequest "GET" "/version")).jsonField "buildDate"
        = some "2024-01-01" ∧
      (serve buildV2 (mkRequest "GET" "/version")).written
        = (serve buildV2 { mkRequest "GET" "/version" with RawQuery := "x=1" }).written :=
  have h := get_version_reports_build buildV2
    [mkRequest "GET" "/version", mkRequest "GET" "/",
     { mkRequest "GET" "/version" with RawQuery := "x=1" }] 0 2
    (mkRequest "GET" "/version") { mkRequest "GET" "/version" with RawQuery := "x=1" }
    rfl rfl rfl rfl rfl rfl
  ⟨h.1, h.2.1, h.2.2.1, h.2.2.2.1, h.2.2.2.2.2.2.2⟩

/-! ## Shape of the redirect target -/

/-- C7, as stated, fails: with version `v2`, the non-global path `/v2/../foo`
begins with `/v2`, yet its `Location` is `/v2/foo`, which does not begin with the
doubled prefix `/v2/v2`. -/
theorem dotdot_path_prefix_not_doubled :
    ("/v2/../foo" : String) ≠ "/" ∧ ("/v2/../foo" : String) ≠ "/version" ∧
      hasPrefix "/v2/../foo" ("/" ++ "v2") = true ∧
      ((NewVersioningMiddleware "v2").EnsureVersion
        (Context.fresh (mkRequest "GET" "/v2/../foo"))).location = some "/v2/foo" ∧
      hasPrefix "/v2/foo" ("/" ++ "v2" ++ "/" ++ "v2") = false := by
  decide

/-- C7, amended: for every version `v` and every non-global path `p` that already
begins with `"/" + v`, when the target `"/" + v + p` is a plain clean path the
redirector answers 308 with `Location` `"/" + v + p`, which begins with the doubled
prefix `"/" + v + "/" + v`. -/
theorem EnsureVersion_doubled_prefix_redirect (v : String) (c : Context)
    (h1 : c.Request.Path ≠ "/") (h2 : c.Request.Path ≠ "/version")
    (hpre : hasPrefix c.Request.Path ("/" ++ v) = true)
    (hplain : isPlainPath ("/" ++ v ++ c.Request.Path) = true) :
    ((NewVersioningMiddleware v).EnsureVersion c).status = some 308 ∧
      ((NewVersioningMiddleware v).EnsureVersion c).location
        = some ("/" ++ v ++ c.Request.Path) ∧
      hasPrefix ("/" ++ v ++ c.Request.Path) ("/" ++ v ++ "/" ++ v) = true := by
  have h : globalPaths c.Request.Path = false := (globalPaths_false_iff _).2 ⟨h1, h2⟩
  obtain ⟨hs, _, hl⟩ := EnsureVersion_location (NewVersioningMiddleware v) c h
  refine ⟨hs, ?_, ?_⟩
  · rw [hl]
    exact congrArg some (redirect_location_plain _ hplain)
  · obtain ⟨t, ht⟩ := (hasPrefix_iff _ _).1 hpre
    rw [hasPrefix_iff]
    exact ⟨t, by rw [ht]; simp [String.append_assoc]⟩

theorem EnsureVersion_doubled_prefix_redirect_witness :
    ((NewVersioningMiddleware "v2").EnsureVersion
        (Context.fresh (mkRequest "GET" "/v2/foo"))).status = some 308 ∧
      ((NewVersioningMiddleware "v2").EnsureVersion
        (Context.fresh (mkRequest "GET" "/v2/foo"))).location
          = some ("/" ++ "v2" ++ "/v2/foo") ∧
      hasPrefix ("/" ++ "v2" ++ "/v2/foo") ("/" ++ "v2" ++ "/" ++ "v2") = true :=
  EnsureVersion_doubled_prefix_redirect "v2" (Context.fresh (mkRequest "GET" "/v2/foo"))
    (by decide) (by decide) (by decide) (by decide)

/-- C8, as stated, fails: with version `v2`, the non-global path `/..` begins with
`/`, yet its `Location` is `/`, a member of the global-path set, and the redirector
answers a request for it with 405. -/
theorem dotdot_redirects_to_global :
    ("/.." : String) ≠ "/" ∧ ("/.." : String) ≠ "/version" ∧
      hasPrefix "/.." "/" = true ∧
      ((NewVersioningMiddleware "v2").EnsureVersion
        (Context.fresh (mkRequest "GET" "/.."))).location = some "/" ∧
      globalPaths "/" = true ∧
      ((NewVersioningMiddleware "v2").EnsureVersion
        (Context.fresh (mkRequest "GET" "/"))).status = some 405 := by
  decide

/-- C8, amended: for every version `v` and every non-global path `p` beginning with
`/` for which the target `"/" + v + p` is a plain clean path, the redirect
`Location` is `"/" + v + p` and is not in the global-path set, so the redirector
does not answer 405 to a request for it (it answers 308). -/
theorem redirect_target_not_global (v : String) (c c2 : Context)
    (h1 : c.Request.Path ≠ "/") (h2 : c.Request.Path ≠ "/version")
    (hpre : hasPrefix c.Request.Path "/" = true)
    (hplain : isPlainPath ("/" ++ v ++ c.Request.Path) = true)
    (hfollow : ((NewVersioningMiddleware v).EnsureVersion c).location
      = some c2.Request.Path) :
    c2.Request.Path = "/" ++ v ++ c.Request.Path ∧
      c2.Request.Path ≠ "/" ∧ c2.Request.Path ≠ "/version" ∧
      globalPaths c2.Request.Path = false ∧
      ((NewVersioningMiddleware v).EnsureVersion c2).status ≠ some 405 ∧
      ((NewVersioningMiddleware v).EnsureVersion c2).status = some 308 := by
  have h : globalPaths c.Request.Path = false := (globalPaths_false_iff _).2 ⟨h1, h2⟩
  obtain ⟨_, _, hl⟩ := EnsureVersion_location (NewVersioningMiddleware v) c h
  have hl2 : ((NewVersioningMiddleware v).EnsureVersion c).location
      = some (hexEscapeNonASCII (redirectURL ("/" ++ v ++ c.Request.Path))) := hl
  rw [hl2, redirect_location_plain _ hplain] at hfollow
  have e : c2.Request.Path = "/" ++ v ++ c.Request.Path := (Option.some.inj hfollow).symm
  obtain ⟨t, ht⟩ := (hasPrefix_iff _ _).1 hpre
  have hg : globalPaths c2.Request.Path = false := by
    rw [e, ht]; exact globalPaths_slash_inside v t
  have hne := (globalPaths_false_iff _).1 hg
  have hs : ((NewVersioningMiddleware v).EnsureVersion c2).status = some 308 :=
    (EnsureVersion_location (NewVersioningMiddleware v) c2 hg).1
  exact ⟨e, hne.1, hne.2, hg, by rw [hs]; decide, hs⟩

theorem redirect_target_not_global_witness :
    (Context.fresh (mkRequest "GET" "/v2/unknown")).Request.Path
        = "/" ++ "v2" ++ (Context.fresh (mkRequest "GET" "/unknown")).Request.Path ∧
      globalPaths (Context.fresh (mkRequest "GET" "/v2/unknown")).Request.Path = false ∧
      ((NewVersioningMiddleware "v2").EnsureVersion
        (Context.fresh (mkRequest "GET" "/v2/unknown"))).status = some 308 :=
  have h := redirect_target_not_global "v2" (Context.fresh (mkRequest "GET" "/unknown"))
    (Context.fresh (mkRequest "GET" "/v2/unknown")) (by decide) (by decide) (by decide)
    (by decide) (by decide)
  ⟨h.1, h.2.2.2.1, h.2.2.2.2.2⟩

/-! ## Chains of redirects -/

theorem followRedirect_plain (m : VersioningMiddleware) (r : Request)
    (h : globalPaths r.Path = false)
    (hplain : isPlainPath ("/" ++ m.ApiVersion ++ r.Path) = true) :
    followRedirect m r = some { r with Path := "/" ++ m.ApiVersion ++ r.Path } := by
  have h0 : globalPaths (Context.fresh r).Request.Path = false := h
  obtain ⟨_, _, hl⟩ := EnsureVersion_location m (Context.fresh r) h0
  have hl2 : (m.EnsureVersion (Context.fresh r)).location
      = some ("/" ++ m.ApiVersion ++ r.Path) := by
    rw [hl]
    exact congrArg some (redirect_location_plain _ hplain)
  unfold followRedirect
  rw [hl2]

theorem redirect_target_size (v p : String) :
    ("/" ++ v ++ p).utf8ByteSize = p.utf8ByteSize + v.utf8ByteSize + 1 := by
  rw [utf8ByteSize_append, utf8ByteSize_append, slash_utf8ByteSize]
  omega

/-- Following redirects from a non-global path that begins with `/` and whose
target is a plain clean path never stops: each request reached is again of that
kind. -/
theorem followRedirects_chain (m : VersioningMiddleware) (req : Request)
    (hg : globalPaths req.Path = false) (hpre : hasPrefix req.Path "/" = true)
    (hplain : isPlainPath ("/" ++ m.ApiVersion ++ req.Path) = true) (n : Nat) :
    ∃ r, followRedirects m n req = some r ∧ globalPaths r.Path = false ∧
      hasPrefix r.Path "/" = true ∧
      isPlainPath ("/" ++ m.ApiVersion ++ r.Path) = true ∧
      r.Path.utf8ByteSize = req.Path.utf8ByteSize + n * (m.ApiVersion.utf8ByteSize + 1) := by
  induction n with
  | zero => exact ⟨req, rfl, hg, hpre, hplain, by simp⟩
  | succ k ih =>
    obtain ⟨r, hr, hrg, hrp, hrplain, hsz⟩ := ih
    obtain ⟨t, ht⟩ := (hasPrefix_iff _ _).1 hrp
    refine ⟨{ r with Path := "/" ++ m.ApiVersion ++ r.Path }, ?_, ?_, ?_, ?_, ?_⟩
    · simp only [followRedirects, hr]
      exact followRedirect_plain m r hrg hrplain
    · show globalPaths ("/" ++ m.ApiVersion ++ r.Path) = false
      rw [ht]; exact globalPaths_slash_inside _ t
    · show hasPrefix ("/" ++ m.ApiVersion ++ r.Path) "/" = true
      rw [hasPrefix_iff]
      exact ⟨m.ApiVersion ++ r.Path, by simp [String.append_assoc]⟩
    · exact isPlainPath_step _ _ hrplain hrp
    · show ("/" ++ m.ApiVersion ++ r.Path).utf8ByteSize = _
      rw [redirect_target_size, hsz, Nat.succ_mul]
      omega

/-- C9, as stated, fails: with version `..`, the non-global path `/foo` is
redirected to `/foo` itself; the `Location` is not longer than the path. -/
theorem dotdot_version_redirects_to_itself :
    ("/foo" : String) ≠ "/" ∧ ("/foo" : String) ≠ "/version" ∧
      ((NewVersioningMiddleware "..").EnsureVersion
        (Context.fresh (mkRequest "GET" "/foo"))).status = some 308 ∧
      ((NewVersioningMiddleware "..").EnsureVersion
        (Context.fresh (mkRequest "GET" "/foo"))).location = some "/foo" ∧
      ¬ (("/foo" : String).utf8ByteSize < ("/foo" : String).utf8ByteSize) := by
  decide

/-- C9, amended: for every version `v` and every non-global path `p` for which the
target `"/" + v + p` is a plain clean path, the redirect `Location` is that target:
it has length `len(p) + len(v) + 1`, is strictly longer than `p`, differs from `p`
and ends with `p`; and when `p` begins with `/`, following the redirector's own
redirects goes on forever: after any number `n` of redirects there is a next
request, it is answered 308, and the path after it is strictly longer. -/
theorem redirect_never_to_itself (v : String) (req : Request)
    (h1 : req.Path ≠ "/") (h2 : req.Path ≠ "/version")
    (hplain : isPlainPath ("/" ++ v ++ req.Path) = true) :
    (∃ loc, ((NewVersioningMiddleware v).EnsureVersion (Context.fresh req)).location
        = some loc ∧
      loc = "/" ++ v ++ req.Path ∧
      loc.utf8ByteSize = req.Path.utf8ByteSize + v.utf8ByteSize + 1 ∧
      req.Path.utf8ByteSize < loc.utf8ByteSize ∧
      loc ≠ req.Path ∧
      hasSuffix loc req.Path = true) ∧
    (hasPrefix req.Path "/" = true → ∀ n : Nat, ∃ r r2,
      followRedirects (NewVersioningMiddleware v) n req = some r ∧
      ((NewVersioningMiddleware v).EnsureVersion (Context.fresh r)).status = some 308 ∧
      followRedirects (NewVersioningMiddleware v) (n + 1) req = some r2 ∧
      r.Path.utf8ByteSize < r2.Path.utf8ByteSize ∧
      r.Path.utf8ByteSize = req.Path.utf8ByteSize + n * (v.utf8ByteSize + 1)) := by
  have hg : globalPaths req.Path = false := (globalPaths_false_iff _).2 ⟨h1, h2⟩
  have hg0 : globalPaths (Context.fresh req).Request.Path = false := hg
  constructor
  · refine ⟨"/" ++ v ++ req.Path, ?_, rfl, redirect_target_size v req.Path, ?_, ?_, ?_⟩
    · rw [(EnsureVersion_location (NewVersioningMiddleware v) (Context.fresh req) hg0).2.2]
      exact congrArg some (redirect_location_plain _ hplain)
    · rw [redirect_target_size]; omega
    · intro e
      have hsz := redirect_target_size v req.Path
      rw [e] at hsz
      omega
    · exact hasSuffix_append _ _
  · intro hpre n
    obtain ⟨r, hr, hrg, _, hrplain, hsz⟩ :=
      followRedirects_chain (NewVersioningMiddleware v) req hg hpre hplain n
    have hrg0 : globalPaths (Context.fresh r).Request.Path = false := hrg
    refine ⟨r, { r with Path := "/" ++ v ++ r.Path }, hr, ?_, ?_, ?_, hsz⟩
    · exact (EnsureVersion_location (NewVersioningMiddleware v) (Context.fresh r) hrg0).1
    · simp only [followRedirects, hr]
      exact followRedirect_plain (NewVersioningMiddleware v) r hrg hrplain
    · show r.Path.utf8ByteSize < ("/" ++ v ++ r.Path).utf8ByteSize
      rw [redirect_target_size]; omega

theorem redirect_never_to_itself_witness :
    (∃ loc, ((NewVersioningMiddleware "v2").EnsureVersion
        (Context.fresh (mkRequest "GET" "/foo"))).location = some loc ∧
      loc = "/" ++ "v2" ++ (mkRequest "GET" "/foo").Path ∧
      loc.utf8ByteSize = (mkRequest "GET" "/foo").Path.utf8ByteSize
        + ("v2" : String).utf8ByteSize + 1 ∧
      (mkRequest "GET" "/foo").Path.utf8ByteSize < loc.utf8ByteSize ∧
      loc ≠ (mkRequest "GET" "/foo").Path ∧
      hasSuffix loc (mkRequest "GET" "/foo").Path = true) ∧
    (∃ r r2,
      followRedirects (NewVersioningMiddleware "v2") 2 (mkRequest "GET" "/foo") = some r ∧
      ((NewVersioningMiddleware "v2").EnsureVersion (Context.fresh r)).status = some 308 ∧
      followRedirects (NewVersioningMiddleware "v2") 3 (mkRequest "GET" "/foo") = some r2 ∧
      r.Path.utf8ByteSize < r2.Path.utf8ByteSize ∧
      r.Path.utf8ByteSize = (mkRequest "GET" "/foo").Path.utf8ByteSize
        + 2 * (("v2" : String).utf8ByteSize + 1)) :=
  have h := redirect_never_to_itself "v2" (mkRequest "GET" "/foo") (by decide) (by decide)
    (by decide)
  ⟨h.1, h.2 (by decide) 2⟩

/-! ## What the method changes -/

/-- C10, as stated, fails: with version `v2` and the non-global path `/foo`, a `GET`
and a `POST` are both answered 308, no 405 body is involved, and yet the responses
differ: only the `GET` response carries a `Content-Type` header and an HTML body. -/
theorem get_redirect_differs_from_post :
    ((NewVersioningMiddleware "v2").EnsureVersion
        (Context.fresh ((mkRequest "GET" "/foo").withMethod "GET"))).status = some 308 ∧
      ((NewVersioningMiddleware "v2").EnsureVersion
        (Context.fresh ((mkRequest "GET" "/foo").withMethod "POST"))).status = some 308 ∧
      ((NewVersioningMiddleware "v2").EnsureVersion
        (Context.fresh ((mkRequest "GET" "/foo").withMethod "GET"))).redirectContentType
          = some "text/html; charset=utf-8" ∧
      ((NewVersioningMiddleware "v2").EnsureVersion
        (Context.fresh ((mkRequest "GET" "/foo").withMethod "POST"))).redirectContentType
          = none ∧
      ((NewVersioningMiddleware "v2").EnsureVersion
        (Context.fresh ((mkRequest "GET" "/foo").withMethod "POST"))).redirectBody
          = some "" ∧
      ¬ (((NewVersioningMiddleware "v2").EnsureVersion
        (Context.fresh ((mkRequest "GET" "/foo").withMethod "GET"))).redirectBody
          = some "") ∧
      ¬ (((NewVersioningMiddleware "v2").EnsureVersion
          (Context.fresh ((mkRequest "GET" "/foo").withMethod "GET"))).withoutField "method"
        = ((NewVersioningMiddleware "v2").EnsureVersion
          (Context.fresh ((mkRequest "GET" "/foo").withMethod "POST"))).withoutField
            "method") := by
  decide

/-- C10, amended: for every version and every request, the status, the redirect
`Location` and the abort flag produced by the redirector are the same whatever the
method. Besides the `method` field of the 405 body, the method decides only whether
the 308 response carries the HTML `Content-Type` (for `GET` and `HEAD`) and the
short HTML body (for `GET`): for a global path, and for any two methods that agree
on being `GET` and on being `HEAD`, the two responses are equal once the `method`
field is removed. -/
theorem EnsureVersion_method_independent (v : String) (req : Request) (m1 m2 : String) :
    ((NewVersioningMiddleware v).EnsureVersion (Context.fresh (req.withMethod m1))).status
        = ((NewVersioningMiddleware v).EnsureVersion
            (Context.fresh (req.withMethod m2))).status ∧
      ((NewVersioningMiddleware v).EnsureVersion (Context.fresh (req.withMethod m1))).location
        = ((NewVersioningMiddleware v).EnsureVersion
            (Context.fresh (req.withMethod m2))).location ∧
      ((NewVersioningMiddleware v).EnsureVersion (Context.fresh (req.withMethod m1))).aborted
        = ((NewVersioningMiddleware v).EnsureVersion
            (Context.fresh (req.withMethod m2))).aborted ∧
      (globalPaths req.Path = true ∨
          ((m1 = "GET" ↔ m2 = "GET") ∧ (m1 = "HEAD" ↔ m2 = "HEAD")) →
        ((NewVersioningMiddleware v).EnsureVersion
            (Context.fresh (req.withMethod m1))).withoutField "method"
          = ((NewVersioningMiddleware v).EnsureVersion
              (Context.fresh (req.withMethod m2))).withoutField "method") ∧
      (globalPaths req.Path = false →
        ((NewVersioningMiddleware v).EnsureVersion
            (Context.fresh (req.withMethod m1))).redirectContentType
          = (if m1 = "GET" ∨ m1 = "HEAD" then some "text/html; charset=utf-8" else none) ∧
        (m1 ≠ "GET" →
          ((NewVersioningMiddleware v).EnsureVersion
            (Context.fresh (req.withMethod m1))).redirectBody = some "")) := by
  have k1 : ("error" != ("method" : String)) = true := by decide
  have k2 : ("path" != ("method" : String)) = true := by decide
  have k3 : ("method" != ("method" : String)) = false := by decide
  cases hg : globalPaths req.Path with
  | true =>
    have g1 : globalPaths (Context.fresh (req.withMethod m1)).Request.Path = true := hg
    have g2 : globalPaths (Context.fresh (req.withMethod m2)).Request.Path = true := hg
    rw [EnsureVersion_global _ _ g1, EnsureVersion_global _ _ g2]
    refine ⟨rfl, rfl, rfl, ?_, ?_⟩
    · intro _
      simp [Context.withoutField, Context.JSON, Context.fresh, Request.withMethod,
        List.filter, k1, k2, k3]
    · intro hcon
      simp at hcon
  | false =>
    have g1 : globalPaths (Context.fresh (req.withMethod m1)).Request.Path = false := hg
    have g2 : globalPaths (Context.fresh (req.withMethod m2)).Request.Path = false := hg
    rw [EnsureVersion_nonglobal _ _ g1, EnsureVersion_nonglobal _ _ g2]
    refine ⟨rfl, rfl, rfl, ?_, ?_⟩
    · intro hor
      rcases hor with hcon | ⟨ha, hb⟩
      · simp at hcon
      · simp [Context.withoutField, Context.Redirect, Context.Abort, Context.fresh,
          Request.withMethod, ha, hb]
    · intro _
      refine ⟨rfl, ?_⟩
      intro hne
      simp [Context.redirectBody, Context.Redirect, Context.Abort, Context.fresh,
        Request.withMethod, hne]

theorem EnsureVersion_method_independent_witness :
    ((NewVersioningMiddleware "v2").EnsureVersion
        (Context.fresh ((mkRequest "GET" "/foo").withMethod "POST"))).status
        = ((NewVersioningMiddleware "v2").EnsureVersion
            (Context.fresh ((mkRequest "GET" "/foo").withMethod "DELETE"))).status ∧
      ((NewVersioningMiddleware "v2").EnsureVersion
          (Context.fresh ((mkRequest "GET" "/foo").withMethod "POST"))).withoutField "method"
        = ((NewVersioningMiddleware "v2").EnsureVersion
            (Context.fresh ((mkRequest "GET" "/foo").withMethod "DELETE"))).withoutField
              "method" ∧
      ((NewVersioningMiddleware "v2").EnsureVersion
          (Context.fresh ((mkRequest "GET" "/foo").withMethod "POST"))).redirectBody
        = some "" :=
  have h := EnsureVersion_method_independent "v2" (mkRequest "GET" "/foo") "POST" "DELETE"
  ⟨h.1, h.2.2.2.1 (Or.inr (by decide)), (h.2.2.2.2 (by decide)).2 (by decide)⟩

end NotesApi
